import Mathlib

/-! # Verification of the content-aggregation pipeline

Shallow embedding, in Lean 4, of the content-aggregation pipeline of the
`pinnco` SAC application (source file `part_002`):

* the token estimator `estimateTokenCount`,
* the glob-like skip matcher `shouldSkipEntry`,
* the extension allow-list check `isAllowedFileType`,
* the content transformer `processFileContent` (comment stripping and
  minification, implemented in the source with four sequential
  `String.replace` regex passes followed by the two minify passes),
* the GitHub fetch loop of `fetchRepoContents` (budgeting, per-file
  failure skipping, cooperative cancellation),
* the local tree walker `processFileEntry` and the drop handler
  `handleDrop`.

Strings are modelled as `List Char` in the scanner cores (JavaScript
strings are sequences of code units; the inputs considered here are
plain text), with `String`-level wrappers.  The regex passes are
embedded as executable scanners that reproduce the JavaScript
`String.replace` semantics: leftmost match, alternatives tried in
order, scanning resumes after each replacement, no rescan of
replacement output.
-/

namespace SAC

/-! ## Basic string utilities -/

/-- The whitespace class used by the embedded scanners: the ASCII
subset of JavaScript's `\s` (space, tab, newline, carriage return). -/
def isWs (c : Char) : Bool :=
  c = ' ' || c = '\t' || c = '\n' || c = '\r'

/-- `String.prototype.trim()`: remove leading and trailing whitespace. -/
def jsTrim (l : List Char) : List Char :=
  ((l.dropWhile isWs).reverse.dropWhile isWs).reverse

/-- `trim` at the `String` level. -/
def jsTrimStr (s : String) : String :=
  String.mk (jsTrim s.data)

/-- `String.prototype.toLowerCase()`, per character (ASCII-adequate). -/
def lowerStr (s : String) : String :=
  String.mk (s.data.map Char.toLower)

/-! ## Token estimator (source: `estimateTokenCount`)

```js
const estimateTokenCount = (text: string): number => {
    return Math.ceil(text.length / 4);
};
``` -/

/-- `Math.ceil(text.length / 4)` on natural numbers. -/
def estimateTokenCount (text : String) : Nat :=
  (text.length + 3) / 4

/-! ## Skip matcher (source: `shouldSkipEntry`)

```js
const shouldSkipEntry = (path: string): boolean => {
    const normalizedPath = path.toLowerCase();
    const allPatterns = [...DEFAULT_SKIP_PATTERNS, ...settings.excludePatterns]
        .map(pattern => pattern.toLowerCase().trim()).filter(Boolean);
    return allPatterns.some(pattern => {
        const regexPattern = pattern
            .replace(/[.+^${}()|[\]\\]/g, '\\$&')
            .replace(/\*/g, '.*')
            .replace(/\?/g, '.');
        const regex = new RegExp(regexPattern);
        return regex.test(normalizedPath);
    });
};
``` -/

/-- The regex metacharacters escaped by the first `.replace`. -/
def regexMeta : List Char :=
  ['.', '+', '^', '$', '{', '}', '(', ')', '|', '[', ']', '\\']

/-- `.replace(/[.+^${}()|[\]\\]/g, '\\$&')`. -/
def escapeRegexChars (l : List Char) : List Char :=
  l.flatMap fun c => if c ∈ regexMeta then ['\\', c] else [c]

/-- `.replace(/\*/g, '.*')`. -/
def starToRegex (l : List Char) : List Char :=
  l.flatMap fun c => if c = '*' then ['.', '*'] else [c]

/-- `.replace(/\?/g, '.')`. -/
def questionToRegex (l : List Char) : List Char :=
  l.flatMap fun c => if c = '?' then ['.'] else [c]

/-- The regex source string built by `shouldSkipEntry` for one pattern. -/
def compileRegexString (pattern : List Char) : List Char :=
  questionToRegex (starToRegex (escapeRegexChars pattern))

/-- Abstract syntax of the (very small) regex fragment the compiled
pattern strings live in: literal characters, `.` (any non-newline
character), and `.*` (any run of non-newline characters). -/
inductive GlobTok where
  | lit (c : Char)
  | one
  | run
deriving DecidableEq, Repr

/-- The matching semantics of one glob pattern character, as produced by
the source's three `replace` calls: `*` becomes `.*`, `?` becomes `.`,
everything else is matched literally (metacharacters are escaped). -/
def globTokens (pattern : List Char) : List GlobTok :=
  pattern.map fun c =>
    if c = '*' then .run else if c = '?' then .one else .lit c

/-- Characters that are structural in the regex grammar: a pattern
string beginning with one of these (unescaped) is not a plain token.
A leading quantifier (`*`, `+`, `?`) is a "nothing to repeat" syntax
error in JavaScript. -/
def structuralRegexChars : List Char :=
  ['*', '+', '?', '(', ')', '[', ']', '{', '}', '|', '^', '$']

/-- Parser for the regex fragment, modelling `new RegExp(...)`: returns
`none` where the JavaScript `RegExp` constructor would reject the
source string (dangling `\`, leading quantifier) and where the string
leaves the fragment's grammar (structural characters, which the
compiled strings never contain unescaped).  A successful parse yields
the token semantics. -/
def parseRegex : List Char → Option (List GlobTok)
  | [] => some []
  | '\\' :: rest =>
    match rest with
    | [] => none
    | c :: rest' => (parseRegex rest').map (.lit c :: ·)
  | '.' :: '*' :: rest => (parseRegex rest).map (.run :: ·)
  | '.' :: rest => (parseRegex rest).map (.one :: ·)
  | c :: rest =>
    if c ∈ structuralRegexChars then none
    else (parseRegex rest).map (.lit c :: ·)

/-- Matcher for the token semantics, anchored at the start of `l`; the
match may end anywhere.  `.` and `.*` do not match `'\n'` (no `s`
flag). -/
def matchHere : List GlobTok → List Char → Bool
  | [], _ => true
  | .lit c :: ts, l =>
    match l with
    | [] => false
    | x :: xs => x = c && matchHere ts xs
  | .one :: ts, l =>
    match l with
    | [] => false
    | x :: xs => decide (x ≠ '\n') && matchHere ts xs
  | .run :: ts, l => anyTail (matchHere ts) l
where
  /-- Try `f` on `l` and on every tail of `l` reachable without
  crossing a newline (the characters consumed by `.*`). -/
  anyTail (f : List Char → Bool) : List Char → Bool
  | [] => f []
  | x :: xs => f (x :: xs) || (decide (x ≠ '\n') && anyTail f xs)

/-- `regex.test(s)` for an unanchored pattern: try a match at every
position of `s`. -/
def testRegex (ts : List GlobTok) : List Char → Bool
  | [] => matchHere ts []
  | x :: xs => matchHere ts (x :: xs) || testRegex ts xs

/-- The fixed default skip list. -/
def DEFAULT_SKIP_PATTERNS : List String :=
  ["node_modules", "vendor", "dist", "build", ".git",
   "__pycache__", "venv", ".env", "coverage", "tmp"]

/-- The processing configuration (the fields of `AdvancedSettings` the
pipeline reads). -/
structure Settings where
  tokenLimit : Int
  excludePatterns : List String
  removeComments : Bool
  minifyCode : Bool
  allowedFormats : String

/-- The effective, cleaned pattern list of `shouldSkipEntry`:
defaults then user patterns, each lower-cased and trimmed, empty ones
discarded. -/
def effectivePatterns (s : Settings) : List String :=
  ((DEFAULT_SKIP_PATTERNS ++ s.excludePatterns).map
    fun p => jsTrimStr (lowerStr p)).filter (· ≠ "")

/-- `shouldSkipEntry`, with the compiled pattern semantics inlined
(compilation never fails; see `c8_filtering_total`). -/
def shouldSkipEntry (s : Settings) (path : String) : Bool :=
  (effectivePatterns s).any fun p =>
    testRegex (globTokens p.data) (lowerStr path).data

/-- `shouldSkipEntry` with `new RegExp` modelled as the partial
`parseRegex`: a pattern whose compiled string failed to parse would
abort the surrounding `.some` with an exception (`.error ()`), exactly
as an invalid regex would throw in the source. -/
def shouldSkipEntryE (s : Settings) (path : String) : Except Unit Bool :=
  go (effectivePatterns s)
where
  go : List String → Except Unit Bool
  | [] => .ok false
  | p :: ps =>
    match parseRegex (compileRegexString p.data) with
    | none => .error ()
    | some ts =>
      if testRegex ts (lowerStr path).data then .ok true else go ps

/-! ### Totality of pattern compilation (C8) -/

/-- The compiled regex fragment contributed by one pattern character. -/
def regexUnit (c : Char) : List Char :=
  if c ∈ regexMeta then ['\\', c]
  else if c = '*' then ['.', '*']
  else if c = '?' then ['.']
  else [c]

/-! ## Content transformer (source: `processFileContent`, and the
identical inline code of `processFileEntry`)

```js
if (settings.removeComments) {
    processedContent = processedContent
        .replace(/\/\*[\s\S]*?\*\/|([^:]|^)\/\/.*$/gm, '$1')
        .replace(/^\s*#.*$/gm, '')
        .replace(/^\s*--.*$/gm, '')
        .replace(/^\s*\n/gm, '')
        .trim();
}
if (settings.minifyCode) {
    processedContent = processedContent
        .replace(/\s+/g, ' ')
        .replace(/\n/g, '')
        .trim();
}
```

Each `replace` is embedded as a scanner that walks the string exactly
as the JavaScript regex engine does: at each position the alternatives
are tried in order (block comment, then `[^:]//`, then `^//`), a match
is replaced and scanning resumes after it (replacement output is never
rescanned), and `^` holds at position `0` and after each `'\n'`.  The
scanners take a fuel argument (the recursion consumes variable-length
chunks); fuel equal to the input length always suffices, since every
step consumes at least one character. -/

/-- Drop up to (but not including) the next `'\n'`: the characters a
`.*$` consumes in multiline mode. -/
def dropToNl (l : List Char) : List Char := l.dropWhile (· ≠ '\n')

/-- Find the first `*/` and return what follows it (the lazy
`[\s\S]*?\*\/`). -/
def findClose : List Char → Option (List Char)
  | [] => none
  | [_] => none
  | c :: d :: r => if c = '*' ∧ d = '/' then some r else findClose (d :: r)

/-- If `l` begins a closed block comment `/*...*/`, the text after its
closing `*/`. -/
def blockRest : List Char → Option (List Char)
  | c :: d :: t => if c = '/' ∧ d = '*' then findClose t else none
  | _ => none

/-- Does the `([^:])\/\/` alternative match at the head of `l`? -/
def lineAlt2 : List Char → Bool
  | c :: d :: e :: _ => decide (c ≠ ':' ∧ d = '/' ∧ e = '/')
  | _ => false

/-- Does the `^\/\/` alternative match at the head of `l` (given the
position is a line start)? -/
def lineAlt3 : List Char → Bool
  | c :: d :: _ => decide (c = '/' ∧ d = '/')
  | _ => false

/-- Scanner for `.replace(/\/\*[\s\S]*?\*\/|([^:]|^)\/\/.*$/gm, '$1')`.
`ls` records whether the current position is a line start. -/
def stripCGo : Nat → Bool → List Char → List Char
  | 0, _, _ => []
  | _ + 1, _, [] => []
  | fuel + 1, ls, c :: cs =>
    match blockRest (c :: cs) with
    | some rest => stripCGo fuel false rest
    | none =>
      if lineAlt2 (c :: cs) then c :: stripCGo fuel false (dropToNl cs)
      else if ls && lineAlt3 (c :: cs) then stripCGo fuel false (dropToNl cs)
      else c :: stripCGo fuel (decide (c = '\n')) cs

def stripCStyle (l : List Char) : List Char := stripCGo l.length true l

/-- If, at a line start, `^\s*MARKER` matches the head of `l`, the
remainder of the input after the matched `^\s*MARKER.*$` (the match's
own line-ending `'\n'` is not consumed). -/
def markedLineRest (marker : List Char) (l : List Char) : Option (List Char) :=
  let rest := l.dropWhile isWs
  if marker.isPrefixOf rest then some (dropToNl rest) else none

/-- Scanner for `.replace(/^\s*MARKER.*$/gm, '')` (`MARKER` is `#` or
`--`; note `\s` may cross line breaks, so the match can also swallow
whitespace-only lines immediately before the marked line). -/
def removeMarkedGo (marker : List Char) : Nat → Bool → List Char → List Char
  | 0, _, _ => []
  | _ + 1, _, [] => []
  | fuel + 1, ls, c :: cs =>
    match ls, markedLineRest marker (c :: cs) with
    | true, some r => removeMarkedGo marker fuel false r
    | _, _ => c :: removeMarkedGo marker fuel (decide (c = '\n')) cs

def removeHashLines (l : List Char) : List Char :=
  removeMarkedGo ['#'] l.length true l

def removeDashLines (l : List Char) : List Char :=
  removeMarkedGo ['-', '-'] l.length true l

/-- If, at a line start, `^\s*\n` matches the head of `l`, the
remainder after the first matched `'\n'` (greedy `\s*` backtracks to
the last `'\n'` of the whitespace run; consuming newline-by-newline
from successive line starts yields the same result). -/
def blankLineSplit (l : List Char) : Option (List Char) :=
  match l.dropWhile (fun c => isWs c && c ≠ '\n') with
  | x :: r => if x = '\n' then some r else none
  | [] => none

/-- Scanner for `.replace(/^\s*\n/gm, '')`. -/
def removeBlankGo : Nat → Bool → List Char → List Char
  | 0, _, _ => []
  | _ + 1, _, [] => []
  | fuel + 1, ls, c :: cs =>
    match ls, blankLineSplit (c :: cs) with
    | true, some r => removeBlankGo fuel true r
    | _, _ => c :: removeBlankGo fuel (decide (c = '\n')) cs

def removeBlankLines (l : List Char) : List Char :=
  removeBlankGo l.length true l

/-- The full comment-stripping pass: the four `replace`s then `trim`. -/
def stripComments (l : List Char) : List Char :=
  jsTrim (removeBlankLines (removeDashLines (removeHashLines (stripCStyle l))))

/-- Scanner for `.replace(/\s+/g, ' ')`: `inWs` records whether the
previous character was part of a whitespace run already replaced. -/
def collapseGo : Bool → List Char → List Char
  | _, [] => []
  | inWs, c :: cs =>
    if isWs c then
      if inWs then collapseGo true cs else ' ' :: collapseGo true cs
    else c :: collapseGo false cs

def collapseWs (l : List Char) : List Char := collapseGo false l

/-- `.replace(/\n/g, '')`. -/
def removeNewlines (l : List Char) : List Char := l.filter (· ≠ '\n')

/-- The full minify pass. -/
def minify (l : List Char) : List Char :=
  jsTrim (removeNewlines (collapseWs l))

/-- `processFileContent`: comment stripping first (if enabled), then
minification (if enabled). -/
def processContent (s : Settings) (l : List Char) : List Char :=
  let l1 := if s.removeComments then stripComments l else l
  if s.minifyCode then minify l1 else l1

/-- `processFileContent` at the `String` level. -/
def processFileContent (s : Settings) (content : String) : String :=
  String.mk (processContent s content.data)

/-! ### Idempotence of the transform (C6)

The claim fails for `stripComments`: removing a block comment can make
a previously separated `//` pair adjacent, which the single left-to-
right replacement pass never rescans but a second application strips.
Minification alone (and the identity transform) are idempotent. -/

/-- Configuration with only comment stripping enabled. -/
def stripOnly : Settings := ⟨1500, [], true, false, ""⟩

/-- No two adjacent whitespace characters. -/
def NoWsRun (l : List Char) : Prop :=
  l.Chain' fun a b => ¬(isWs a = true ∧ isWs b = true)

/-! ## Extension allow-list (source: `isAllowedFileType`)

```js
const isAllowedFileType = (filename: string): boolean => {
    const extension = '.' + filename.split('.').pop()?.toLowerCase();
    if (!extension) return false;
    const allowedTypes = settings.allowedFormats
        .split('\n')
        .map(type => type.trim().toLowerCase())
        .filter(Boolean);
    if (allowedTypes.length === 0) return true;
    return allowedTypes.includes(extension);
};
``` -/

/-- `String.prototype.split(sep)` for a single-character separator:
always returns at least one (possibly empty) segment. -/
def splitOnChar (sep : Char) : List Char → List (List Char)
  | [] => [[]]
  | c :: cs =>
    match splitOnChar sep cs with
    | [] => [[c]]
    | h :: t => if c = sep then [] :: h :: t else (c :: h) :: t

/-- `'.' + filename.split('.').pop()?.toLowerCase()`. -/
def computedExtension (filename : String) : String :=
  String.mk ('.' :: ((splitOnChar '.' filename.data).getLastD []).map Char.toLower)

/-- The cleaned allow list parsed from `allowedFormats`
(newline-separated; entries trimmed then lower-cased; empties
dropped). -/
def parsedAllowedTypes (s : Settings) : List String :=
  ((splitOnChar '\n' s.allowedFormats.data).map
    (fun t => String.mk ((jsTrim t).map Char.toLower))).filter (· ≠ "")

/-- `isAllowedFileType`, including the source's (unreachable)
empty-extension rejection branch. -/
def isAllowedFileType (s : Settings) (filename : String) : Bool :=
  let extension := computedExtension filename
  if extension = "" then false
  else
    let allowedTypes := parsedAllowedTypes s
    if allowedTypes.length = 0 then true
    else allowedTypes.contains extension

/-! ## Remote fetch loop (source: `fetchRepoContents`)

```js
let combinedContent = ''; let processedFiles = 0;
let totalSize = 0; let currentTokens = 0;
for (const file of files) {
    if (signal.aborted) { throw new Error('Operation cancelled'); }
    try {
        const contentResponse = await fetch(...);
        if (!contentResponse.ok) continue;
        let content = atob(contentData.content);
        content = processFileContent(content);
        const contentTokens = Math.ceil(content.length / 4);
        if (settings.tokenLimit > 0 &&
            currentTokens + contentTokens > settings.tokenLimit) {
            console.warn(`Token limit (${settings.tokenLimit}) reached`);
            break;
        }
        combinedContent += `\n\n// File: ${file.path}\n${content}`;
        processedFiles++; totalSize += content.length;
        currentTokens += contentTokens;
    } catch (error) {
        if (error.message === 'Operation cancelled') throw error;
        console.warn(...);   // per-file failure: skip and continue
    }
}
return { content: combinedContent.trim(), fileCount: processedFiles,
         totalSize, tokenCount: currentTokens };
```

The two listing phases (repository metadata and the recursive tree) are
modelled by the `files` argument: the filtered list of blobs, each
`some (path, decodedContent)` or `none` for a file whose individual
fetch fails (`continue`).  Cancellation is modelled by an optional
countdown `ab`: `some k` means the abort signal becomes (and stays) set
at the `k`-th per-iteration check; `none` means it is never set.  The
loop's `console.warn` on hitting the token limit is recorded in the
`warned` field (the returned record itself has no truncation field —
see `c1_counterexample`). -/

structure FetchResult where
  content : String
  fileCount : Nat
  totalSize : Nat
  tokenCount : Nat
deriving DecidableEq, Repr

inductive FetchErr where
  | cancelled
  | notFound
  | fetchFailed
deriving DecidableEq, Repr

/-- The loop's local variables, plus the `warned` observation of the
token-limit `console.warn`. -/
structure FetchSt where
  combined : List Char
  processed : Nat
  totalSize : Nat
  tokens : Nat
  warned : Bool
deriving DecidableEq, Repr

def initFetchSt : FetchSt := ⟨[], 0, 0, 0, false⟩

/-- `` `\n\n// File: ${file.path}\n${content}` ``. -/
def renderFragment (path content : String) : List Char :=
  "\n\n// File: ".data ++ path.data ++ '\n' :: content.data

/-- The `for (const file of files)` loop. -/
def fetchGo (s : Settings) :
    Option Nat → FetchSt → List (Option (String × String)) →
      FetchSt × Option FetchErr
  | _, st, [] => (st, none)
  | ab, st, f :: rest =>
    if ab = some 0 then (st, some .cancelled)
    else
      match f with
      | none => fetchGo s (ab.map (· - 1)) st rest
      | some (path, raw) =>
        let content := processFileContent s raw
        let contentTokens := estimateTokenCount content
        if s.tokenLimit > 0 ∧ (st.tokens : Int) + contentTokens > s.tokenLimit
        then ({ st with warned := true }, none)
        else
          fetchGo s (ab.map (· - 1))
            { combined := st.combined ++ renderFragment path content,
              processed := st.processed + 1,
              totalSize := st.totalSize + content.length,
              tokens := st.tokens + contentTokens,
              warned := st.warned } rest

/-- The returned aggregate record (`.trim()` applied to the
concatenation). -/
def mkFetchResult (st : FetchSt) : FetchResult :=
  ⟨String.mk (jsTrim st.combined), st.processed, st.totalSize, st.tokens⟩

/-- `fetchRepoContents` restricted to its per-file loop: a thrown
cancellation propagates as `.error`; normal completion (including a
budget break) returns the record. -/
def fetchRepoContents (s : Settings) (ab : Option Nat)
    (files : List (Option (String × String))) : Except FetchErr FetchResult :=
  match fetchGo s ab initFetchSt files with
  | (st, none) => .ok (mkFetchResult st)
  | (_, some e) => .error e

/-- `handleSubmit`'s error display: every failure message is shown
except a cancellation (`'Operation cancelled by user'`). -/
def displayedError : Option FetchErr → Option String
  | some .cancelled => none
  | some .notFound => some "Repository not found"
  | some .fetchFailed => some "Failed to fetch repository contents"
  | none => none

/-! ### Which files the loop accepts (specification helpers) -/

/-- The files the loop accepts, starting from a running token count
`tok`: mirrors the budget check of `fetchGo` but collects the accepted
`(path, transformedContent)` pairs. -/
def acceptedFiles (s : Settings) :
    Nat → List (Option (String × String)) → List (String × String)
  | _, [] => []
  | tok, none :: rest => acceptedFiles s tok rest
  | tok, some (path, raw) :: rest =>
    let content := processFileContent s raw
    let t := estimateTokenCount content
    if s.tokenLimit > 0 ∧ (tok : Int) + t > s.tokenLimit then []
    else (path, content) :: acceptedFiles s (tok + t) rest

/-- Whether the run hits the token budget (the loop `break`s with a
warning). -/
def budgetHit (s : Settings) :
    Nat → List (Option (String × String)) → Bool
  | _, [] => false
  | tok, none :: rest => budgetHit s tok rest
  | tok, some (_, raw) :: rest =>
    let t := estimateTokenCount (processFileContent s raw)
    if s.tokenLimit > 0 ∧ (tok : Int) + t > s.tokenLimit then true
    else budgetHit s (tok + t) rest

/-! ### Token accounting of the fetch result (C2) -/

/-- Configuration with an unlimited budget and no transforms. -/
def unlimCfg : Settings := ⟨-1, [], false, false, ""⟩

/-! ### Budget enforcement (C1) -/

/-- Configuration with `tokenBudget = 1`. -/
def oneCfg : Settings := ⟨1, [], false, false, ""⟩

/-! ## Local tree walker (source: `processFileEntry` and `handleDrop`)

```js
const processFileEntry = async (entry, path = '') => {
    const entryPath = path ? `${path}/${entry.name}` : entry.name;
    if (shouldSkipEntry(entryPath)) { return ''; }
    if (entry.isFile) {
        if (file.size > 10 * 1024 * 1024) { return ''; }
        if (!isAllowedFileType(file.name)) { return ''; }
        // ... comment removal / minification (= processFileContent) ...
        const cleanPath = entryPath.replace(/^\/+/, '').replace(/\/+/g, '/');
        return `\n\n// File: ${cleanPath}\n${processedContent}`;
    }
    if (entry.isDirectory) {
        // read all entries (paged), then:
        let combinedContent = '';
        for (const childEntry of entries) {
            const content = await processFileEntry(childEntry, entryPath);
            combinedContent += content;
            if (settings.tokenLimit > 0 && currentTokens >= settings.tokenLimit)
                { break; }
        }
        return combinedContent;
    }
};
```

`currentTokens` here is the React state captured by the handler's
closure: it is *not* updated while a drop is being processed (no
`setCurrentTokens` runs inside the walk), so it is a constant `ct0`
for the whole run — `0` for a run started from a cleared editor.
`handleDrop`'s own loop compares the same captured `currentTokens`
against the `tokenLimit` state (`tl`).  The `fuel` argument bounds the
recursion depth of the embedding; any value at least the tree height
yields the code's semantics (the JavaScript recursion is unbounded). -/

inductive FSEntry where
  | file (name : String) (size : Nat) (content : String)
  | dir (name : String) (children : List FSEntry)

def mkEntryPath (path name : String) : String :=
  if path = "" then name else path ++ "/" ++ name

/-- `.replace(/\/+/g, '/')`: collapse slash runs. -/
def collapseSlashGo : Bool → List Char → List Char
  | _, [] => []
  | inRun, c :: cs =>
    if c = '/' then (if inRun then [] else ['/']) ++ collapseSlashGo true cs
    else c :: collapseSlashGo false cs

/-- `entryPath.replace(/^\/+/, '').replace(/\/+/g, '/')`. -/
def cleanDisplayPath (p : String) : String :=
  String.mk (collapseSlashGo false (p.data.dropWhile (· = '/')))

/-- `processFileEntry`. -/
def procE (s : Settings) (ct0 : Int) : Nat → String → FSEntry → String
  | 0, _, _ => ""
  | _ + 1, path, .file name size content =>
    let entryPath := mkEntryPath path name
    if shouldSkipEntry s entryPath then ""
    else if size > 10 * 1024 * 1024 then ""
    else if ¬ isAllowedFileType s name then ""
    else
      String.mk ("\n\n// File: ".data ++ (cleanDisplayPath entryPath).data ++
        '\n' :: (processFileContent s content).data)
  | fuel + 1, path, .dir name children =>
    let entryPath := mkEntryPath path name
    if shouldSkipEntry s entryPath then ""
    else
      (children.foldl
        (fun acc child =>
          if acc.2 then acc
          else (acc.1 ++ procE s ct0 fuel entryPath child,
            decide (s.tokenLimit > 0 ∧ ct0 ≥ s.tokenLimit)))
        ("", false)).1

/-- `handleDrop`'s entry loop: top of each iteration checks the
captured `currentTokens` against `tokenLimit`; an entry's nonempty
combined content is appended and counted as *one* file. -/
def dropLoop (s : Settings) (ct0 tl : Int) (fuel : Nat) :
    List FSEntry → String × Nat
  | [] => ("", 0)
  | e :: rest =>
    if ct0 ≥ tl then ("", 0)
    else
      let c := procE s ct0 fuel "" e
      let r := dropLoop s ct0 tl fuel rest
      if c ≠ "" then (c ++ r.1, r.2 + 1) else r

/-- `handleDrop`: empty drops and zero accepted entries throw; the
final content is trimmed. -/
def handleDrop (s : Settings) (ct0 tl : Int) (fuel : Nat)
    (entries : List FSEntry) : Except String (String × Nat) :=
  if entries.isEmpty then .error "No files dropped"
  else
    let r := dropLoop s ct0 tl fuel entries
    if r.2 = 0 then
      .error "No valid files found or all files exceeded token limit"
    else .ok (jsTrimStr r.1, r.2)

/-- The full default accepted-extension list (`DEFAULT_ACCEPTED_TYPES`
joined by newlines is the default `allowedFormats`). -/
def DEFAULT_ACCEPTED_TYPES : List String :=
  [".js", ".jsx", ".ts", ".tsx", ".vue", ".svelte", ".html", ".css", ".scss",
   ".py", ".rb", ".go", ".rs", ".java", ".kt", ".swift", ".cpp", ".c", ".cs",
   ".sql", ".json", ".yaml", ".toml", ".env", ".md", ".txt", ".csv"]

/-- `DEFAULT_SETTINGS` (the fields the pipeline reads). -/
def defaultSettings : Settings :=
  ⟨1500, [], false, false, String.intercalate "\n" DEFAULT_ACCEPTED_TYPES⟩

/-- Number of occurrences of `pat` in `l` (used to count the
`// File:` fragment headers of an output). -/
def countOccur (pat : List Char) : List Char → Nat
  | [] => 0
  | c :: cs => (if pat.isPrefixOf (c :: cs) then 1 else 0) + countOccur pat cs

/-! ## Theorems -/

theorem ceil_div_four (n : Nat) : (n + 3) / 4 = ⌈(n : ℚ) / 4⌉₊ := by
  rcases Nat.eq_zero_or_pos n with h0 | hpos
  · subst h0; simp
  · have hk := Nat.div_add_mod (n + 3) 4
    have hr : (n + 3) % 4 < 4 := Nat.mod_lt _ (by norm_num)
    have hkpos : (n + 3) / 4 ≠ 0 := by omega
    rw [eq_comm, Nat.ceil_eq_iff hkpos]
    have hq1 : 1 ≤ (n + 3) / 4 := by omega
    have hub : 4 * ((n + 3) / 4) ≤ n + 3 := by omega
    have hlb : n ≤ 4 * ((n + 3) / 4) := by omega
    have hubQ : (4 : ℚ) * ((n + 3) / 4 : ℕ) ≤ (n : ℚ) + 3 := by exact_mod_cast hub
    have hlbQ : (n : ℚ) ≤ 4 * ((n + 3) / 4 : ℕ) := by exact_mod_cast hlb
    constructor
    · rw [Nat.cast_sub hq1, lt_div_iff₀ (by norm_num : (0:ℚ) < 4)]
      push_cast
      linarith
    · rw [div_le_iff₀ (by norm_num : (0:ℚ) < 4)]
      linarith

/-- **C5.** For all text `t`, `estimate(t) = ceil(length(t)/4)`, and
`estimate("") = 0`.  The estimator is a pure total Lean function, hence
deterministic. -/
theorem c5_estimator_ceil :
    (∀ t : String, estimateTokenCount t = ⌈(t.length : ℚ) / 4⌉₊) ∧
    estimateTokenCount "" = 0 :=
  ⟨fun t => ceil_div_four t.length, rfl⟩

theorem mem_meta_ne (c : Char) (h : c ∈ regexMeta) : c ≠ '*' ∧ c ≠ '?' := by
  fin_cases h <;> exact ⟨by decide, by decide⟩

theorem compile_cons (c : Char) (p : List Char) :
    compileRegexString (c :: p) = regexUnit c ++ compileRegexString p := by
  unfold compileRegexString regexUnit escapeRegexChars starToRegex questionToRegex
  rw [List.flatMap_cons]
  by_cases hm : c ∈ regexMeta
  · rcases mem_meta_ne c hm with ⟨h1, h2⟩
    simp [hm, h1, h2]
  · by_cases hs : c = '*'
    · subst hs; simp [hm]
    · by_cases hq : c = '?'
      · subst hq; simp [hm]
      · simp [hm, hs, hq]

theorem regexUnit_ne_nil (c : Char) : regexUnit c ≠ [] := by
  unfold regexUnit
  split_ifs <;> simp

theorem compile_head_ne_star (p : List Char) :
    (compileRegexString p).head? ≠ some '*' := by
  cases p with
  | nil => simp [compileRegexString, escapeRegexChars, starToRegex, questionToRegex]
  | cons c p =>
    rw [compile_cons]
    unfold regexUnit
    by_cases hm : c ∈ regexMeta
    · simp [hm]
    · by_cases hs : c = '*'
      · subst hs; simp [hm]
      · by_cases hq : c = '?'
        · subst hq; simp [hm]
        · simp [hm, hs, hq]

theorem parse_backslash (c : Char) (l : List Char) :
    parseRegex ('\\' :: c :: l) = (parseRegex l).map (.lit c :: ·) := by
  simp [parseRegex]

theorem parse_dotstar (l : List Char) :
    parseRegex ('.' :: '*' :: l) = (parseRegex l).map (.run :: ·) := by
  simp [parseRegex]

theorem parse_dot (l : List Char) (h : l.head? ≠ some '*') :
    parseRegex ('.' :: l) = (parseRegex l).map (.one :: ·) := by
  cases l with
  | nil => simp [parseRegex]
  | cons y l' =>
    have hy : y ≠ '*' := by simpa using h
    simp [parseRegex, hy]

theorem parse_plain (c : Char) (l : List Char) (h1 : c ≠ '\\') (h2 : c ≠ '.')
    (h3 : c ∉ structuralRegexChars) :
    parseRegex (c :: l) = (parseRegex l).map (.lit c :: ·) := by
  cases l with
  | nil => simp [parseRegex, h1, h2, h3]
  | cons y l' => simp [parseRegex, h1, h2, h3]

/-- Every compiled pattern string parses, and its parse is exactly the
direct glob-token semantics: `new RegExp` never throws on a compiled
skip pattern. -/
theorem parse_compile (p : List Char) :
    parseRegex (compileRegexString p) = some (globTokens p) := by
  induction p with
  | nil => simp [compileRegexString, escapeRegexChars, starToRegex, questionToRegex,
      globTokens, parseRegex]
  | cons c p ih =>
    rw [compile_cons]
    unfold regexUnit
    by_cases hm : c ∈ regexMeta
    · rcases mem_meta_ne c hm with ⟨h1, h2⟩
      simp only [hm, if_true, List.cons_append, List.nil_append]
      rw [parse_backslash, ih]
      simp [globTokens, h1, h2]
    · by_cases hs : c = '*'
      · subst hs
        simp only [hm, if_false, if_true, List.cons_append, List.nil_append]
        rw [parse_dotstar, ih]
        simp [globTokens]
      · by_cases hq : c = '?'
        · subst hq
          simp only [hm, hs, if_false, if_true, List.cons_append, List.nil_append]
          rw [parse_dot _ (compile_head_ne_star p), ih]
          simp [globTokens]
        · have hb : c ≠ '\\' := by
            intro h; subst h; simp [regexMeta] at hm
          have hd : c ≠ '.' := by
            intro h; subst h; simp [regexMeta] at hm
          have hst : c ∉ structuralRegexChars := by
            intro h
            fin_cases h <;> simp_all [regexMeta, structuralRegexChars]
          simp only [hm, hs, hq, if_false, List.cons_append, List.nil_append,
            List.singleton_append]
          rw [parse_plain c _ hb hd hst, ih]
          simp [globTokens, hs, hq]

/-- **C8.** For every path and every pattern list, `shouldSkipEntry`
never raises: compiling a pattern never produces an invalid regex (all
metacharacters are escaped before `new RegExp` is called, so the
"unparseable pattern" case is vacuous), hence the exception-aware model
always returns `.ok` of the pure answer, and pattern filtering is
total. -/
theorem c8_filtering_total (s : Settings) (path : String) :
    shouldSkipEntryE s path = .ok (shouldSkipEntry s path) := by
  unfold shouldSkipEntryE shouldSkipEntry
  generalize effectivePatterns s = ps
  induction ps with
  | nil => simp [shouldSkipEntryE.go]
  | cons p ps ih =>
    rw [shouldSkipEntryE.go, parse_compile]
    simp only [List.any_cons]
    by_cases ht : testRegex (globTokens p.data) (lowerStr path).data
    · simp [ht]
    · simp [ht, ih]

/-! ### The transform with both flags off is the identity (C10) -/

/-- **C10.** When both `stripComments` and `minify` are disabled, the
content transform returns its input unchanged — in particular it does
not trim. -/
theorem c10_transform_id (s : Settings) (t : String)
    (h1 : s.removeComments = false) (h2 : s.minifyCode = false) :
    processFileContent s t = t := by
  unfold processFileContent processContent
  rw [h1, h2]
  simp

/-- Witness for `c10_transform_id` at a concrete input (one that would
change under trimming, stripping or minification). -/
theorem c10_transform_id_witness :
    processFileContent ⟨1500, [], false, false, ""⟩ "  a // b \n\n c " =
      "  a // b \n\n c " :=
  c10_transform_id ⟨1500, [], false, false, ""⟩ "  a // b \n\n c " rfl rfl

/-- **C6, counterexample.** With `stripComments` enabled, the transform
is not idempotent: on `"a://*b*///x"` the first pass removes the block
comment `/*b*/`, producing `"a:///x"`, and only a second pass then
strips the now-adjacent `//` line comment, producing `"a:/"`. -/
theorem c6_counterexample :
    processFileContent stripOnly (processFileContent stripOnly "a://*b*///x") ≠
      processFileContent stripOnly "a://*b*///x" := by
  decide

theorem noWsRun_reverse {l : List Char} (h : NoWsRun l) : NoWsRun l.reverse := by
  rw [NoWsRun, List.chain'_reverse]
  exact h.imp fun a b hab => fun ⟨x, y⟩ => hab ⟨y, x⟩

theorem noWsRun_dropWhile {l : List Char} (p : Char → Bool) (h : NoWsRun l) :
    NoWsRun (l.dropWhile p) :=
  h.suffix (List.dropWhile_suffix p)

theorem mem_collapseGo {b : Bool} {l : List Char} {c : Char}
    (h : c ∈ collapseGo b l) : c = ' ' ∨ (c ∈ l ∧ isWs c = false) := by
  induction l generalizing b with
  | nil => simp [collapseGo] at h
  | cons x xs ih =>
    by_cases hx : isWs x
    · cases b with
      | true =>
        simp only [collapseGo, hx, if_true] at h
        rcases ih h with h' | h'
        · exact Or.inl h'
        · exact Or.inr ⟨List.mem_cons_of_mem _ h'.1, h'.2⟩
      | false =>
        simp only [collapseGo, hx, if_true] at h
        rcases List.mem_cons.mp h with h' | h'
        · exact Or.inl h'
        · rcases ih h' with h'' | h''
          · exact Or.inl h''
          · exact Or.inr ⟨List.mem_cons_of_mem _ h''.1, h''.2⟩
    · simp only [collapseGo, hx, if_false] at h
      rcases List.mem_cons.mp h with h' | h'
      · subst h'
        exact Or.inr ⟨List.mem_cons_self _ _, by simpa using hx⟩
      · rcases ih h' with h'' | h''
        · exact Or.inl h''
        · exact Or.inr ⟨List.mem_cons_of_mem _ h''.1, h''.2⟩

theorem nl_not_mem_collapseGo (b : Bool) (l : List Char) :
    '\n' ∉ collapseGo b l := by
  intro h
  rcases mem_collapseGo h with h' | h'
  · exact absurd h' (by decide)
  · exact absurd h'.2 (by simp [isWs])

/-- The head of `collapseGo true l` is never whitespace (the `true`
state is inside a run already replaced by a single space). -/
theorem collapseGo_true_head (l : List Char) :
    ∀ c ∈ (collapseGo true l).head?, isWs c = false := by
  induction l with
  | nil => simp [collapseGo]
  | cons x xs ih =>
    by_cases hx : isWs x
    · simpa [collapseGo, hx] using ih
    · simp [collapseGo, hx]

theorem noWsRun_collapseGo (b : Bool) (l : List Char) :
    NoWsRun (collapseGo b l) := by
  induction l generalizing b with
  | nil => simp [collapseGo, NoWsRun]
  | cons x xs ih =>
    by_cases hx : isWs x
    · cases b with
      | true =>
        have e : collapseGo true (x :: xs) = collapseGo true xs := by
          simp [collapseGo, hx]
        rw [NoWsRun, e]
        exact ih true
      | false =>
        have e : collapseGo false (x :: xs) = ' ' :: collapseGo true xs := by
          simp [collapseGo, hx]
        rw [NoWsRun, e, List.chain'_cons']
        exact ⟨fun y hy => by simp [collapseGo_true_head xs y hy], ih true⟩
    · have e : collapseGo b (x :: xs) = x :: collapseGo false xs := by
        cases b <;> simp [collapseGo, hx]
      rw [NoWsRun, e, List.chain'_cons']
      exact ⟨fun y _ => by simp [hx], ih false⟩

theorem collapseGo_fix (l : List Char)
    (hWs : ∀ c ∈ l, isWs c → c = ' ') (hRun : NoWsRun l) :
    collapseGo false l = l ∧
      ((∀ c ∈ l.head?, isWs c = false) → collapseGo true l = l) := by
  induction l with
  | nil => simp [collapseGo]
  | cons x xs ih =>
    have hWs' : ∀ c ∈ xs, isWs c → c = ' ' :=
      fun c hc => hWs c (List.mem_cons_of_mem _ hc)
    have hRun' : NoWsRun xs := (List.chain'_cons'.mp hRun).2
    have ihx := ih hWs' hRun'
    by_cases hx : isWs x
    · have hxsp : x = ' ' := hWs x (List.mem_cons_self _ _) hx
      have hhead : ∀ c ∈ xs.head?, isWs c = false := by
        intro c hc
        have h2 := (List.chain'_cons'.mp hRun).1 c hc
        cases hcw : isWs c
        · rfl
        · exact absurd ⟨hx, hcw⟩ h2
      have htrue : collapseGo true xs = xs := ihx.2 hhead
      constructor
      · have e : collapseGo false (x :: xs) = ' ' :: collapseGo true xs := by
          simp [collapseGo, hx]
        rw [e, htrue, hxsp]
      · intro hfc
        exact absurd hx (by simp [hfc x (by simp)])
    · have e : ∀ b : Bool, collapseGo b (x :: xs) = x :: collapseGo false xs := by
        intro b; cases b <;> simp [collapseGo, hx]
      exact ⟨by rw [e false, ihx.1], fun _ => by rw [e true, ihx.1]⟩

theorem jsTrim_eq_rdropWhile (l : List Char) :
    jsTrim l = List.rdropWhile isWs (l.dropWhile isWs) := rfl

theorem dropWhile_head_not (p : Char → Bool) (l : List Char) :
    ∀ c ∈ (l.dropWhile p).head?, ¬ p c := by
  induction l with
  | nil => simp
  | cons x xs ih =>
    by_cases hx : p x
    · simpa [List.dropWhile_cons, hx] using ih
    · simp [List.dropWhile_cons, hx]

theorem dropWhile_eq_self_of_head (p : Char → Bool) (l : List Char)
    (h : ∀ c ∈ l.head?, ¬ p c) : l.dropWhile p = l := by
  cases l with
  | nil => simp
  | cons x xs =>
    have := h x (by simp)
    simp [List.dropWhile_cons, this]

theorem jsTrim_idem (l : List Char) : jsTrim (jsTrim l) = jsTrim l := by
  rw [jsTrim_eq_rdropWhile l]
  set T := List.rdropWhile isWs (l.dropWhile isWs) with hT
  have hdrop : T.dropWhile isWs = T := by
    apply dropWhile_eq_self_of_head
    intro c hc
    have hTne : T ≠ [] := by
      intro hnil; rw [hnil] at hc; simp at hc
    obtain ⟨t, ht⟩ := List.rdropWhile_prefix isWs (l.dropWhile isWs)
    rw [← hT] at ht
    obtain ⟨t0, ts, hTc⟩ := List.exists_cons_of_ne_nil hTne
    have hheads : T.head? = (l.dropWhile isWs).head? := by
      rw [← ht, hTc]
      simp
    rw [hheads] at hc
    exact dropWhile_head_not isWs l c hc
  rw [jsTrim_eq_rdropWhile T, hdrop, hT, List.rdropWhile_idempotent]

theorem mem_jsTrim {l : List Char} {c : Char} (h : c ∈ jsTrim l) : c ∈ l := by
  unfold jsTrim at h
  rw [List.mem_reverse] at h
  have h1 := (List.dropWhile_suffix (l := (l.dropWhile isWs).reverse) isWs).subset h
  rw [List.mem_reverse] at h1
  exact (List.dropWhile_suffix isWs).subset h1

theorem noWsRun_jsTrim {l : List Char} (h : NoWsRun l) : NoWsRun (jsTrim l) :=
  noWsRun_reverse (noWsRun_dropWhile _ (noWsRun_reverse (noWsRun_dropWhile _ h)))

theorem removeNewlines_eq_self {l : List Char} (h : '\n' ∉ l) :
    removeNewlines l = l := by
  unfold removeNewlines
  rw [List.filter_eq_self]
  intro a ha
  simp only [decide_eq_true_eq]
  exact fun hc => h (hc ▸ ha)

theorem minify_idem (l : List Char) : minify (minify l) = minify l := by
  have hnl : '\n' ∉ collapseWs l := nl_not_mem_collapseGo false l
  have hu : minify l = jsTrim (collapseWs l) := by
    unfold minify
    rw [removeNewlines_eq_self hnl]
  set u := jsTrim (collapseWs l) with hudef
  have humem : ∀ c ∈ u, c ∈ collapseWs l := fun c hc => mem_jsTrim hc
  have hwsSp : ∀ c ∈ u, isWs c → c = ' ' := by
    intro c hc hcw
    rcases mem_collapseGo (humem c hc) with h' | h'
    · exact h'
    · rw [hcw] at h'; simp at h'
  have hrun : NoWsRun u := noWsRun_jsTrim (noWsRun_collapseGo false l)
  have hnl2 : '\n' ∉ u := fun hmem => hnl (humem _ hmem)
  rw [hu]
  show minify u = u
  unfold minify
  rw [show collapseWs u = u from (collapseGo_fix u hwsSp hrun).1]
  rw [removeNewlines_eq_self hnl2]
  rw [hudef, jsTrim_idem]

/-- **C6, amended.** The transform is total (a Lean function) and is
idempotent whenever `stripComments` is disabled (in particular for
minification alone and for the identity configuration); with
`stripComments` enabled a second application can strip further
(`c6_counterexample`), so idempotence holds only in that reduced
form. -/
theorem processContent_no_strip (s : Settings) (h : s.removeComments = false)
    (l : List Char) :
    processContent s l = if s.minifyCode then minify l else l := by
  unfold processContent
  rw [h]
  simp

theorem c6_transform_idempotent_no_strip (s : Settings) (t : String)
    (h : s.removeComments = false) :
    processFileContent s (processFileContent s t) = processFileContent s t := by
  show String.mk (processContent s (processContent s t.data)) =
    String.mk (processContent s t.data)
  rw [processContent_no_strip s h, processContent_no_strip s h]
  cases hm : s.minifyCode
  · simp
  · simp [minify_idem]

/-- Witness for `c6_transform_idempotent_no_strip` with minification
enabled at a concrete input. -/
theorem c6_transform_idempotent_no_strip_witness :
    processFileContent ⟨1500, [], false, true, ""⟩
        (processFileContent ⟨1500, [], false, true, ""⟩ "  a\t\nb  c \n ") =
      processFileContent ⟨1500, [], false, true, ""⟩ "  a\t\nb  c \n " :=
  c6_transform_idempotent_no_strip ⟨1500, [], false, true, ""⟩ "  a\t\nb  c \n " rfl

/-! ### Trailing `//` comments: removal and `://` preservation (C7) -/

theorem stripCGo_nil (fuel : Nat) (ls : Bool) : stripCGo fuel ls [] = [] := by
  cases fuel <;> rfl

theorem dropToNl_eq_nil {l : List Char} (h : '\n' ∉ l) : dropToNl l = [] := by
  unfold dropToNl
  rw [List.dropWhile_eq_nil_iff]
  intro x hx
  simp only [decide_eq_true_eq]
  exact fun hc => h (hc ▸ hx)

theorem blockRest_none_of_head {c : Char} (cs : List Char) (h : c ≠ '/') :
    blockRest (c :: cs) = none := by
  cases cs with
  | nil => rfl
  | cons d t => simp [blockRest, h]

theorem lineAlt2_false_of_second {c : Char} {cs : List Char}
    (h : cs.head? ≠ some '/') : lineAlt2 (c :: cs) = false := by
  cases cs with
  | nil => rfl
  | cons d t =>
    have hd : d ≠ '/' := by simpa using h
    cases t with
    | nil => rfl
    | cons e u => simp [lineAlt2, hd]

theorem lineAlt2_false_of_third (c d : Char) {t : List Char}
    (h : t.head? ≠ some '/') : lineAlt2 (c :: d :: t) = false := by
  cases t with
  | nil => rfl
  | cons e u =>
    have he : e ≠ '/' := by simpa using h
    simp [lineAlt2, he]

theorem lineAlt3_false_of_head {c : Char} (cs : List Char) (h : c ≠ '/') :
    lineAlt3 (c :: cs) = false := by
  cases cs with
  | nil => rfl
  | cons d t => simp [lineAlt3, h]

theorem stripCGo_emit (fuel : Nat) (ls : Bool) (c : Char) (cs : List Char)
    (hb : blockRest (c :: cs) = none) (h2 : lineAlt2 (c :: cs) = false)
    (h3 : lineAlt3 (c :: cs) = false) :
    stripCGo (fuel + 1) ls (c :: cs) =
      c :: stripCGo fuel (decide (c = '\n')) cs := by
  simp [stripCGo, hb, h2, h3]

theorem stripCGo_emit_notls (fuel : Nat) (c : Char) (cs : List Char)
    (hb : blockRest (c :: cs) = none) (h2 : lineAlt2 (c :: cs) = false) :
    stripCGo (fuel + 1) false (c :: cs) =
      c :: stripCGo fuel (decide (c = '\n')) cs := by
  simp [stripCGo, hb, h2]

theorem head?_ne_of_not_mem {x : Char} {l : List Char} (h : x ∉ l) :
    l.head? ≠ some x := by
  cases l with
  | nil => simp
  | cons d t =>
    have hd : d ≠ x := fun hdx => h (by simp [hdx])
    simp [hd, fun hxd : x = d => hd hxd.symm]

theorem stripCGo_no_slash {l : List Char} (h : '/' ∉ l) :
    ∀ fuel ls, l.length ≤ fuel → stripCGo fuel ls l = l := by
  induction l with
  | nil => exact fun fuel ls _ => stripCGo_nil fuel ls
  | cons c cs ih =>
    intro fuel ls hf
    cases fuel with
    | zero => simp at hf
    | succ f =>
      have hc : c ≠ '/' := fun hc => h (by simp [hc])
      have hcs : '/' ∉ cs := fun hm => h (List.mem_cons_of_mem _ hm)
      rw [stripCGo_emit f ls c cs (blockRest_none_of_head cs hc)
        (lineAlt2_false_of_second (head?_ne_of_not_mem hcs))
        (lineAlt3_false_of_head cs hc)]
      rw [ih hcs f _ (by simp only [List.length_cons] at hf; omega)]

/-- Walking an initial segment that contains no `/` and no newline:
each character is emitted verbatim, and afterwards the scanner is no
longer at a line start (unless the segment was empty). -/
theorem stripCGo_walk {p : List Char} (rest : List Char)
    (hps : '/' ∉ p) (hpn : '\n' ∉ p) (hr : rest.head? ≠ some '/') :
    ∀ fuel ls, (p ++ rest).length ≤ fuel →
      stripCGo fuel ls (p ++ rest) =
        p ++ stripCGo (fuel - p.length) (ls && decide (p = [])) rest := by
  induction p with
  | nil => intro fuel ls _; simp
  | cons c p' ih =>
    intro fuel ls hf
    cases fuel with
    | zero => simp at hf
    | succ f =>
      have hc : c ≠ '/' := fun hc => hps (by simp [hc])
      have hcn : c ≠ '\n' := fun hc => hpn (by simp [hc])
      have hp's : '/' ∉ p' := fun hm => hps (List.mem_cons_of_mem _ hm)
      have hp'n : '\n' ∉ p' := fun hm => hpn (List.mem_cons_of_mem _ hm)
      have hhead : (p' ++ rest).head? ≠ some '/' := by
        cases p' with
        | nil => simpa using hr
        | cons d t =>
          have hd : d ≠ '/' := fun hdx => hp's (by simp [hdx])
          simp [hd]
      rw [List.cons_append]
      rw [stripCGo_emit f ls c (p' ++ rest) (blockRest_none_of_head _ hc)
        (lineAlt2_false_of_second hhead) (lineAlt3_false_of_head _ hc)]
      rw [show decide (c = '\n') = false from by simp [hcn]]
      rw [ih hp's hp'n f false
        (by simp only [List.cons_append, List.length_cons] at hf; omega)]
      simp

/-- A trailing `//` comment preceded by a non-`:` character (or
standing at a line start) is removed together with the rest of the
line. -/
theorem stripCStyle_strips_line_comment {a b : List Char}
    (has : '/' ∉ a) (hac : ':' ∉ a) (han : '\n' ∉ a)
    (hbs : '/' ∉ b) (hbn : '\n' ∉ b) :
    stripCStyle (a ++ '/' :: '/' :: b) = a := by
  unfold stripCStyle
  rcases List.eq_nil_or_concat a with rfl | ⟨p, x, rfl⟩
  · -- `^//` alternative at position 0
    simp only [List.nil_append, List.length_cons]
    have hb2 : lineAlt2 ('/' :: '/' :: b) = false :=
      lineAlt2_false_of_third _ _ (head?_ne_of_not_mem hbs)
    have hbr : blockRest ('/' :: '/' :: b) = none := by simp [blockRest]
    have h3 : lineAlt3 ('/' :: '/' :: b) = true := by simp [lineAlt3]
    rw [show stripCGo (b.length + 1 + 1) true ('/' :: '/' :: b) =
        stripCGo (b.length + 1) false (dropToNl ('/' :: b)) from by
      simp [stripCGo, hbr, hb2, h3]]
    have hd : dropToNl ('/' :: b) = [] := dropToNl_eq_nil (by
      intro hm
      rcases List.mem_cons.mp hm with h | h
      · exact absurd h.symm (by decide)
      · exact hbn h)
    rw [hd, stripCGo_nil]
  · simp only [List.concat_eq_append] at has hac han ⊢
    have hxs : x ≠ '/' := fun hx => has (by simp [hx])
    have hxc : x ≠ ':' := fun hx => hac (by simp [hx])
    have hps : '/' ∉ p := fun hm => has (by simp [hm])
    have hpn : '\n' ∉ p := fun hm => han (by simp [hm])
    have hassoc : (p ++ [x]) ++ '/' :: '/' :: b = p ++ (x :: '/' :: '/' :: b) := by
      simp
    rw [hassoc]
    rw [stripCGo_walk (x :: '/' :: '/' :: b) hps hpn
      (by simp [hxs]) _ _ le_rfl]
    have hlen : (p ++ x :: '/' :: '/' :: b).length - p.length = b.length + 3 := by
      simp [List.length_append]
    rw [hlen]
    have hb2 : lineAlt2 (x :: '/' :: '/' :: b) = true := by
      simp [lineAlt2, hxc]
    have hbr : blockRest (x :: '/' :: '/' :: b) = none :=
      blockRest_none_of_head _ hxs
    rw [show stripCGo (b.length + 3) (true && decide (p = []))
          (x :: '/' :: '/' :: b) =
        x :: stripCGo (b.length + 2) false (dropToNl ('/' :: '/' :: b)) from by
      simp [stripCGo, hbr, hb2]]
    have hd : dropToNl ('/' :: '/' :: b) = [] := dropToNl_eq_nil (by
      intro hm
      rcases List.mem_cons.mp hm with h | h
      · exact absurd h.symm (by decide)
      · rcases List.mem_cons.mp h with h' | h'
        · exact absurd h'.symm (by decide)
        · exact hbn h')
    rw [hd, stripCGo_nil]

/-- A `//` that is part of `://` is preserved, along with the whole
line. -/
theorem stripCStyle_preserves_url {a b : List Char}
    (has : '/' ∉ a) (han : '\n' ∉ a)
    (hbs : '/' ∉ b) (hbst : '*' ∉ b) (hbn : '\n' ∉ b) :
    stripCStyle (a ++ ':' :: '/' :: '/' :: b) = a ++ ':' :: '/' :: '/' :: b := by
  unfold stripCStyle
  rw [stripCGo_walk (':' :: '/' :: '/' :: b) has han (by simp) _ _ le_rfl]
  have hlen : (a ++ ':' :: '/' :: '/' :: b).length - a.length = b.length + 3 := by
    simp [List.length_append]
  rw [hlen]
  congr 1
  -- step 1: emit ':'
  have e1 : stripCGo (b.length + 3) ((true : Bool) && decide (a = []))
      (':' :: '/' :: '/' :: b) =
      ':' :: stripCGo (b.length + 2) false ('/' :: '/' :: b) := by
    rw [stripCGo_emit _ _ ':' _ (by simp [blockRest])
      (by simp [lineAlt2]) (by simp [lineAlt3])]
    rw [show (decide (':' = '\n')) = false from by decide]
  rw [e1]
  -- step 2: emit the first '/'
  have hhb : b.head? ≠ some '/' := head?_ne_of_not_mem hbs
  have e2 : stripCGo (b.length + 2) false ('/' :: '/' :: b) =
      '/' :: stripCGo (b.length + 1) false ('/' :: b) := by
    rw [stripCGo_emit_notls _ '/' _ (by simp [blockRest])
      (lineAlt2_false_of_third _ _ hhb)]
    rw [show (decide ('/' = '\n')) = false from by decide]
  rw [e2]
  -- step 3: emit the second '/'
  have hbr3 : blockRest ('/' :: b) = none := by
    cases b with
    | nil => rfl
    | cons e t =>
      have he : e ≠ '*' := fun h => hbst (by simp [h])
      simp [blockRest, he]
  have e3 : stripCGo (b.length + 1) false ('/' :: b) =
      '/' :: stripCGo b.length false b := by
    rw [stripCGo_emit_notls _ '/' _ hbr3 (lineAlt2_false_of_second hhb)]
    rw [show (decide ('/' = '\n')) = false from by decide]
  rw [e3]
  rw [stripCGo_no_slash hbs b.length false le_rfl]

/-! ### The passes after the C-style pass are inert on marker-free
text -/

theorem removeMarkedGo_id {m : Char} {ms : List Char} {l : List Char}
    (h : m ∉ l) :
    ∀ fuel ls, l.length ≤ fuel → removeMarkedGo (m :: ms) fuel ls l = l := by
  induction l with
  | nil => intro fuel ls _; cases fuel <;> rfl
  | cons c cs ih =>
    intro fuel ls hf
    cases fuel with
    | zero => simp at hf
    | succ f =>
      have hnone : markedLineRest (m :: ms) (c :: cs) = none := by
        unfold markedLineRest
        cases hrc : (c :: cs).dropWhile isWs with
        | nil => simp [List.isPrefixOf]
        | cons r0 rt =>
          have hr0 : r0 ∈ c :: cs := by
            have hmem : r0 ∈ (c :: cs).dropWhile isWs := by rw [hrc]; simp
            exact (List.dropWhile_suffix isWs).subset hmem
          have hne : m ≠ r0 := fun he => h (he ▸ hr0)
          simp [List.isPrefixOf, hne]
      have estep : removeMarkedGo (m :: ms) (f + 1) ls (c :: cs) =
          c :: removeMarkedGo (m :: ms) f (decide (c = '\n')) cs := by
        cases ls <;> simp [removeMarkedGo, hnone]
      rw [estep, ih (fun hm => h (List.mem_cons_of_mem _ hm)) f _
        (by simp only [List.length_cons] at hf; omega)]

theorem removeHashLines_id {l : List Char} (h : '#' ∉ l) :
    removeHashLines l = l :=
  removeMarkedGo_id h _ _ le_rfl

theorem removeDashLines_id {l : List Char} (h : '-' ∉ l) :
    removeDashLines l = l :=
  removeMarkedGo_id h _ _ le_rfl

theorem removeBlankGo_id {l : List Char} (h : '\n' ∉ l) :
    ∀ fuel ls, l.length ≤ fuel → removeBlankGo fuel ls l = l := by
  induction l with
  | nil => intro fuel ls _; cases fuel <;> rfl
  | cons c cs ih =>
    intro fuel ls hf
    cases fuel with
    | zero => simp at hf
    | succ f =>
      have hnone : blankLineSplit (c :: cs) = none := by
        unfold blankLineSplit
        cases hu : (c :: cs).dropWhile (fun c => isWs c && c ≠ '\n') with
        | nil => rfl
        | cons x r =>
          have hx : x ∈ c :: cs := by
            have hmem : x ∈ (c :: cs).dropWhile (fun c => isWs c && c ≠ '\n') := by
              rw [hu]; simp
            exact (List.dropWhile_suffix _).subset hmem
          have hne : x ≠ '\n' := fun he => h (he ▸ hx)
          simp [hne]
      have estep : removeBlankGo (f + 1) ls (c :: cs) =
          c :: removeBlankGo f (decide (c = '\n')) cs := by
        cases ls <;> simp [removeBlankGo, hnone]
      rw [estep, ih (fun hm => h (List.mem_cons_of_mem _ hm)) f _
        (by simp only [List.length_cons] at hf; omega)]

theorem removeBlankLines_id {l : List Char} (h : '\n' ∉ l) :
    removeBlankLines l = l :=
  removeBlankGo_id h _ _ le_rfl

theorem processFileContent_stripOnly (t : String) :
    processFileContent stripOnly t = String.mk (stripComments t.data) := rfl

/-- **C7.** With `stripComments` enabled, a trailing `//` line comment
is removed (the preceding character, matched by `[^:]`, is kept, and
at a line start the whole comment is removed): on a single line
`a ++ "//" ++ b` whose prefix `a` contains no `/`, `:`, `#`, `-`, and
whose tail `b` contains no `/`, `*`, `#`, `-`, the transform returns
`trim a`.  When the `//` is immediately preceded by a colon (a
URL-like `://`), nothing is stripped and the line survives (up to the
final `trim`). -/
theorem c7_line_comment_url (a b : String)
    (ha : ∀ c ∈ a.data, c ≠ '/' ∧ c ≠ ':' ∧ c ≠ '#' ∧ c ≠ '-' ∧ c ≠ '\n')
    (hb : ∀ c ∈ b.data, c ≠ '/' ∧ c ≠ '*' ∧ c ≠ '#' ∧ c ≠ '-' ∧ c ≠ '\n') :
    processFileContent stripOnly (a ++ "//" ++ b) = jsTrimStr a ∧
    processFileContent stripOnly (a ++ "://" ++ b) = jsTrimStr (a ++ "://" ++ b) := by
  have has : '/' ∉ a.data := fun hm => (ha _ hm).1 rfl
  have hac : ':' ∉ a.data := fun hm => (ha _ hm).2.1 rfl
  have hah : '#' ∉ a.data := fun hm => (ha _ hm).2.2.1 rfl
  have had : '-' ∉ a.data := fun hm => (ha _ hm).2.2.2.1 rfl
  have han : '\n' ∉ a.data := fun hm => (ha _ hm).2.2.2.2 rfl
  have hbs : '/' ∉ b.data := fun hm => (hb _ hm).1 rfl
  have hbst : '*' ∉ b.data := fun hm => (hb _ hm).2.1 rfl
  have hbh : '#' ∉ b.data := fun hm => (hb _ hm).2.2.1 rfl
  have hbd : '-' ∉ b.data := fun hm => (hb _ hm).2.2.2.1 rfl
  have hbn : '\n' ∉ b.data := fun hm => (hb _ hm).2.2.2.2 rfl
  constructor
  · rw [processFileContent_stripOnly]
    have hdata : (a ++ "//" ++ b).data = a.data ++ '/' :: '/' :: b.data := by
      rw [String.data_append, String.data_append, List.append_assoc]
      rfl
    rw [hdata]
    unfold stripComments
    rw [stripCStyle_strips_line_comment has hac han hbs hbn,
      removeHashLines_id hah, removeDashLines_id had, removeBlankLines_id han]
    rfl
  · rw [processFileContent_stripOnly]
    have hdata : (a ++ "://" ++ b).data = a.data ++ ':' :: '/' :: '/' :: b.data := by
      rw [String.data_append, String.data_append, List.append_assoc]
      rfl
    rw [hdata]
    unfold stripComments
    have hwh : '#' ∉ a.data ++ ':' :: '/' :: '/' :: b.data := by
      intro hm
      rcases List.mem_append.mp hm with h | h
      · exact hah h
      · rcases List.mem_cons.mp h with h' | h'
        · exact absurd h'.symm (by decide)
        · rcases List.mem_cons.mp h' with h'' | h''
          · exact absurd h''.symm (by decide)
          · rcases List.mem_cons.mp h'' with h3 | h3
            · exact absurd h3.symm (by decide)
            · exact hbh h3
    have hwd : '-' ∉ a.data ++ ':' :: '/' :: '/' :: b.data := by
      intro hm
      rcases List.mem_append.mp hm with h | h
      · exact had h
      · rcases List.mem_cons.mp h with h' | h'
        · exact absurd h'.symm (by decide)
        · rcases List.mem_cons.mp h' with h'' | h''
          · exact absurd h''.symm (by decide)
          · rcases List.mem_cons.mp h'' with h3 | h3
            · exact absurd h3.symm (by decide)
            · exact hbd h3
    have hwn : '\n' ∉ a.data ++ ':' :: '/' :: '/' :: b.data := by
      intro hm
      rcases List.mem_append.mp hm with h | h
      · exact han h
      · rcases List.mem_cons.mp h with h' | h'
        · exact absurd h'.symm (by decide)
        · rcases List.mem_cons.mp h' with h'' | h''
          · exact absurd h''.symm (by decide)
          · rcases List.mem_cons.mp h'' with h3 | h3
            · exact absurd h3.symm (by decide)
            · exact hbn h3
    rw [stripCStyle_preserves_url has han hbs hbst hbn,
      removeHashLines_id hwh, removeDashLines_id hwd, removeBlankLines_id hwn]
    rw [show jsTrimStr (a ++ "://" ++ b) =
      String.mk (jsTrim (a ++ "://" ++ b).data) from rfl]
    rw [hdata]

/-- Witness for `c7_line_comment_url`: `"see//nothing"` strips to
`"see"`, while `"see://nothing"` is preserved. -/
theorem c7_line_comment_url_witness :
    processFileContent stripOnly ("see" ++ "//" ++ "nothing") = jsTrimStr "see" ∧
    processFileContent stripOnly ("see" ++ "://" ++ "nothing") =
      jsTrimStr ("see" ++ "://" ++ "nothing") :=
  c7_line_comment_url "see" "nothing" (by decide) (by decide)

theorem splitOnChar_ne_nil (sep : Char) (l : List Char) :
    splitOnChar sep l ≠ [] := by
  cases l with
  | nil => simp [splitOnChar]
  | cons c cs =>
    unfold splitOnChar
    cases splitOnChar sep cs with
    | nil => simp
    | cons h t =>
      by_cases hc : c = sep <;> simp [hc]

theorem splitOnChar_of_not_mem {sep : Char} {l : List Char} (h : sep ∉ l) :
    splitOnChar sep l = [l] := by
  induction l with
  | nil => rfl
  | cons c cs ih =>
    have hc : c ≠ sep := fun hcs => h (by simp [hcs])
    unfold splitOnChar
    rw [ih (fun hm => h (List.mem_cons_of_mem _ hm))]
    simp [hc]

/-- **C9.** For a filename containing no `.`, `split('.').pop()` is
the whole filename, so the computed extension is `'.'` followed by the
entire lower-cased name; the computed extension is never the empty
string (it always starts with `'.'`), so the `if (!extension)`
rejection branch is unreachable; such a file is accepted exactly when
the parsed allow list is empty or contains `'.'` plus the whole
lower-cased name. -/
theorem c9_extensionless_files (s : Settings) (fn : String)
    (h : '.' ∉ fn.data) :
    computedExtension fn = String.mk ('.' :: fn.data.map Char.toLower) ∧
    (∀ g : String, computedExtension g ≠ "") ∧
    (isAllowedFileType s fn = true ↔
      (parsedAllowedTypes s = [] ∨
        computedExtension fn ∈ parsedAllowedTypes s)) := by
  have hext : computedExtension fn = String.mk ('.' :: fn.data.map Char.toLower) := by
    unfold computedExtension
    rw [splitOnChar_of_not_mem h]
    rfl
  have hne : ∀ g : String, computedExtension g ≠ "" := by
    intro g hg
    have hdata : (computedExtension g).data = [] := congrArg String.data hg
    simp [computedExtension] at hdata
  refine ⟨hext, hne, ?_⟩
  unfold isAllowedFileType
  rw [if_neg (hne fn)]
  by_cases hlen : (parsedAllowedTypes s).length = 0
  · rw [if_pos hlen]
    simp [List.length_eq_zero.mp hlen]
  · rw [if_neg hlen]
    have hne2 : parsedAllowedTypes s ≠ [] := by
      intro hh
      exact hlen (by rw [hh]; rfl)
    simp [hne2, List.contains, List.elem_iff]

/-- Witness for `c9_extensionless_files` at `"Makefile"` with the
default allow list: `".makefile"` is not among the configured
extensions, so the file is rejected (the allow list is nonempty and
does not contain it). -/
theorem c9_extensionless_files_witness :
    computedExtension "Makefile" =
      String.mk ('.' :: "Makefile".data.map Char.toLower) ∧
    (∀ g : String, computedExtension g ≠ "") ∧
    (isAllowedFileType ⟨1500, [], false, false, ".py\n.ts"⟩ "Makefile" = true ↔
      (parsedAllowedTypes ⟨1500, [], false, false, ".py\n.ts"⟩ = [] ∨
        computedExtension "Makefile" ∈
          parsedAllowedTypes ⟨1500, [], false, false, ".py\n.ts"⟩)) :=
  c9_extensionless_files ⟨1500, [], false, false, ".py\n.ts"⟩ "Makefile" (by decide)

/-- Characterization of an uncancelled run in terms of the accepted
files. -/
theorem fetchGo_none_eq (s : Settings) :
    ∀ (files : List (Option (String × String))) (st : FetchSt),
      fetchGo s none st files =
        ({ combined := st.combined ++
              (acceptedFiles s st.tokens files).flatMap
                (fun pc => renderFragment pc.1 pc.2),
           processed := st.processed + (acceptedFiles s st.tokens files).length,
           totalSize := st.totalSize +
              ((acceptedFiles s st.tokens files).map (fun pc => pc.2.length)).sum,
           tokens := st.tokens +
              ((acceptedFiles s st.tokens files).map
                (fun pc => estimateTokenCount pc.2)).sum,
           warned := st.warned || budgetHit s st.tokens files }, none) := by
  intro files
  induction files with
  | nil => intro st; simp [fetchGo, acceptedFiles, budgetHit]
  | cons f rest ih =>
    intro st
    cases f with
    | none =>
      rw [show fetchGo s none st (none :: rest) = fetchGo s none st rest from by
        simp [fetchGo]]
      rw [ih st]
      simp [acceptedFiles, budgetHit]
    | some pr =>
      obtain ⟨path, raw⟩ := pr
      by_cases hc : s.tokenLimit > 0 ∧
          (st.tokens : Int) + estimateTokenCount (processFileContent s raw) >
            s.tokenLimit
      · rw [show fetchGo s none st (some (path, raw) :: rest) =
            ({ st with warned := true }, none) from by
          simp only [fetchGo, Option.map]
          rw [if_neg (by simp), if_pos hc]]
        rw [show acceptedFiles s st.tokens (some (path, raw) :: rest) = [] from by
          simp only [acceptedFiles]
          rw [if_pos hc]]
        rw [show budgetHit s st.tokens (some (path, raw) :: rest) = true from by
          simp only [budgetHit]
          rw [if_pos hc]]
        simp
      · rw [show fetchGo s none st (some (path, raw) :: rest) =
            fetchGo s none
              { combined := st.combined ++
                  renderFragment path (processFileContent s raw),
                processed := st.processed + 1,
                totalSize := st.totalSize + (processFileContent s raw).length,
                tokens := st.tokens +
                  estimateTokenCount (processFileContent s raw),
                warned := st.warned } rest from by
          simp only [fetchGo, Option.map]
          rw [if_neg (by simp), if_neg hc]]
        rw [ih]
        rw [show acceptedFiles s st.tokens (some (path, raw) :: rest) =
            (path, processFileContent s raw) ::
              acceptedFiles s
                (st.tokens + estimateTokenCount (processFileContent s raw))
                rest from by
          simp only [acceptedFiles]
          rw [if_neg hc]]
        rw [show budgetHit s st.tokens (some (path, raw) :: rest) =
            budgetHit s
              (st.tokens + estimateTokenCount (processFileContent s raw)) rest
            from by
          simp only [budgetHit]
          rw [if_neg hc]]
        simp [List.flatMap_cons, List.append_assoc]
        constructor
        · omega
        · constructor
          · omega
          · omega

/-- **C2, counterexample.** The returned `tokenCount` is not the
estimator applied to the final `content`: for a single one-character
file at path `"p"` the result is
`{content := "// File: p\na", tokenCount := 1}`, but
`estimate("// File: p\na") = ceil(12/4) = 3` — the `// File:` header
is never counted and the per-file ceilings are summed. -/
theorem c2_counterexample :
    fetchRepoContents unlimCfg none [some ("p", "a")] =
      .ok ⟨"// File: p\na", 1, 1, 1⟩ ∧
    (1 : Nat) ≠ estimateTokenCount "// File: p\na" :=
  ⟨rfl, by decide⟩

/-- **C2, amended.** For every completed (uncancelled) run, the
Aggregate Result's `tokenCount` is the sum over the accepted files of
the Token Estimator applied to each file's transformed content — not
the estimator applied to the final `content` string; likewise
`content` is the trimmed concatenation of the rendered fragments,
`fileCount` their number, and `totalSize` the sum of the transformed
lengths. -/
theorem c2_tokenCount_sum (s : Settings)
    (files : List (Option (String × String))) :
    fetchRepoContents s none files =
      .ok ⟨String.mk (jsTrim ((acceptedFiles s 0 files).flatMap
              (fun pc => renderFragment pc.1 pc.2))),
           (acceptedFiles s 0 files).length,
           ((acceptedFiles s 0 files).map (fun pc => pc.2.length)).sum,
           ((acceptedFiles s 0 files).map
              (fun pc => estimateTokenCount pc.2)).sum⟩ := by
  unfold fetchRepoContents
  rw [fetchGo_none_eq s files initFetchSt]
  simp [mkFetchResult, initFetchSt]

/-- **C1, counterexample.** The Aggregate Result record returned by the
fetch loop has no `truncated` field, and no reading of the record can
provide one: the budget-hit run on one oversized file and the
completed run on an empty file list return the *same* record
`{content := "", fileCount := 0, totalSize := 0, tokenCount := 0}`,
while their truncation status (the logged token-limit warning)
differs. -/
theorem c1_counterexample :
    ¬ ∃ truncatedField : FetchResult → Bool,
      ∀ (s : Settings) (files : List (Option (String × String)))
        (r : FetchResult),
        fetchRepoContents s none files = .ok r →
        truncatedField r = (fetchGo s none initFetchSt files).1.warned := by
  rintro ⟨tf, htf⟩
  have h1 := htf oneCfg [some ("p", "abcdefgh")] ⟨"", 0, 0, 0⟩ rfl
  have h2 := htf oneCfg [] ⟨"", 0, 0, 0⟩ rfl
  have e1 : (fetchGo oneCfg none initFetchSt [some ("p", "abcdefgh")]).1.warned
      = true := by decide
  have e2 : (fetchGo oneCfg none initFetchSt
      ([] : List (Option (String × String)))).1.warned = false := by decide
  rw [e1] at h1
  rw [e2] at h2
  simp [h1] at h2

/-- **C1, amended.** With `tokenBudget = 1` and a single file whose
(transformed) estimated token count exceeds 1, the run accepts zero
fragments: the result is `{content := "", fileCount := 0,
totalSize := 0, tokenCount := 0}` and the loop logs the token-limit
warning (its only truncation signal — the record has no `truncated`
field).  In general, whenever the budget is positive, the loop stops
*before* exceeding it: the running `tokenCount` never exceeds
`tokenLimit`. -/
theorem c1_budget_stop (s : Settings) (path raw : String)
    (h1 : s.tokenLimit = 1)
    (h2 : 1 < estimateTokenCount (processFileContent s raw)) :
    fetchRepoContents s none [some (path, raw)] = .ok ⟨"", 0, 0, 0⟩ ∧
    (fetchGo s none initFetchSt [some (path, raw)]).1.warned = true ∧
    (∀ (s' : Settings) (ab : Option Nat) (st : FetchSt)
        (files : List (Option (String × String))),
      0 < s'.tokenLimit → (st.tokens : Int) ≤ s'.tokenLimit →
      ((fetchGo s' ab st files).1.tokens : Int) ≤ s'.tokenLimit) := by
  have hcond : s.tokenLimit > 0 ∧
      ((initFetchSt.tokens : Int) +
        estimateTokenCount (processFileContent s raw) > s.tokenLimit) := by
    constructor
    · rw [h1]; norm_num
    · rw [h1]
      show (0 : Int) + estimateTokenCount (processFileContent s raw) > 1
      have : (2 : Int) ≤ estimateTokenCount (processFileContent s raw) := by
        exact_mod_cast h2
      omega
  have hgo : fetchGo s none initFetchSt [some (path, raw)] =
      ({ initFetchSt with warned := true }, none) := by
    show (if (none : Option Nat) = some 0 then (initFetchSt, some .cancelled)
      else _) = _
    rw [if_neg (by simp)]
    show (if s.tokenLimit > 0 ∧
        (initFetchSt.tokens : Int) +
          estimateTokenCount (processFileContent s raw) > s.tokenLimit
      then ({ initFetchSt with warned := true }, none) else _) = _
    rw [if_pos hcond]
  refine ⟨?_, by rw [hgo], ?_⟩
  · unfold fetchRepoContents
    rw [hgo]
    rfl
  · intro s' ab st files
    induction files generalizing ab st with
    | nil => intro _ hst; exact hst
    | cons f rest ih =>
      intro hpos hst
      by_cases hab : ab = some 0
      · rw [show fetchGo s' ab st (f :: rest) = (st, some .cancelled) from by
          simp [fetchGo, hab]]
        exact hst
      · cases f with
        | none =>
          rw [show fetchGo s' ab st (none :: rest) =
              fetchGo s' (ab.map (· - 1)) st rest from by
            simp [fetchGo, hab]]
          exact ih _ _ hpos hst
        | some pr =>
          obtain ⟨p, raw'⟩ := pr
          by_cases hc : s'.tokenLimit > 0 ∧
              (st.tokens : Int) +
                estimateTokenCount (processFileContent s' raw') > s'.tokenLimit
          · rw [show fetchGo s' ab st (some (p, raw') :: rest) =
                ({ st with warned := true }, none) from by
              simp only [fetchGo]
              rw [if_neg hab, if_pos hc]]
            exact hst
          · rw [show fetchGo s' ab st (some (p, raw') :: rest) =
                fetchGo s' (ab.map (· - 1))
                  { combined := st.combined ++
                      renderFragment p (processFileContent s' raw'),
                    processed := st.processed + 1,
                    totalSize := st.totalSize + (processFileContent s' raw').length,
                    tokens := st.tokens +
                      estimateTokenCount (processFileContent s' raw'),
                    warned := st.warned } rest from by
              simp only [fetchGo]
              rw [if_neg hab, if_neg hc]]
            apply ih
            · exact hpos
            · show (st.tokens +
                estimateTokenCount (processFileContent s' raw') : Int) ≤ _
              rcases not_and_or.mp hc with h | h
              · exact absurd hpos (by omega)
              · omega

/-- Witness for `c1_budget_stop`: budget `1`, one 8-character file
(2 estimated tokens). -/
theorem c1_budget_stop_witness :
    fetchRepoContents oneCfg none [some ("p", "abcdefgh")] =
      .ok ⟨"", 0, 0, 0⟩ ∧
    (fetchGo oneCfg none initFetchSt [some ("p", "abcdefgh")]).1.warned = true ∧
    (∀ (s' : Settings) (ab : Option Nat) (st : FetchSt)
        (files : List (Option (String × String))),
      0 < s'.tokenLimit → (st.tokens : Int) ≤ s'.tokenLimit →
      ((fetchGo s' ab st files).1.tokens : Int) ≤ s'.tokenLimit) :=
  c1_budget_stop oneCfg "p" "abcdefgh" rfl (by decide)

/-! ### Cancellation (C4) -/

/-- The loop state of a cancelled run equals the state of an
uncancelled run over the first `k` files. -/
theorem fetchGo_countdown_state (s : Settings) :
    ∀ (files : List (Option (String × String))) (k : Nat) (st : FetchSt),
      (fetchGo s (some k) st files).1 = (fetchGo s none st (files.take k)).1 := by
  intro files
  induction files with
  | nil => intro k st; simp [fetchGo]
  | cons f rest ih =>
    intro k st
    cases k with
    | zero =>
      rw [show fetchGo s (some 0) st (f :: rest) = (st, some .cancelled) from by
        simp [fetchGo]]
      simp [fetchGo]
    | succ k =>
      cases f with
      | none =>
        rw [show fetchGo s (some (k + 1)) st (none :: rest) =
            fetchGo s (some k) st rest from by simp [fetchGo]]
        rw [show (none :: rest).take (k + 1) = none :: rest.take k from rfl]
        rw [show fetchGo s none st (none :: rest.take k) =
            fetchGo s none st (rest.take k) from by simp [fetchGo]]
        exact ih k st
      | some pr =>
        obtain ⟨p, raw⟩ := pr
        by_cases hc : s.tokenLimit > 0 ∧
            (st.tokens : Int) +
              estimateTokenCount (processFileContent s raw) > s.tokenLimit
        · rw [show fetchGo s (some (k + 1)) st (some (p, raw) :: rest) =
              ({ st with warned := true }, none) from by
            simp only [fetchGo]
            rw [if_neg (by simp), if_pos hc]]
          rw [show (some (p, raw) :: rest).take (k + 1) =
              some (p, raw) :: rest.take k from rfl]
          rw [show fetchGo s none st (some (p, raw) :: rest.take k) =
              ({ st with warned := true }, none) from by
            simp only [fetchGo]
            rw [if_neg (by simp), if_pos hc]]
        · rw [show fetchGo s (some (k + 1)) st (some (p, raw) :: rest) =
              fetchGo s (some k)
                { combined := st.combined ++
                    renderFragment p (processFileContent s raw),
                  processed := st.processed + 1,
                  totalSize := st.totalSize + (processFileContent s raw).length,
                  tokens := st.tokens +
                    estimateTokenCount (processFileContent s raw),
                  warned := st.warned } rest from by
            simp only [fetchGo, Option.map_some', Nat.add_sub_cancel]
            rw [if_neg (by simp), if_neg hc]]
          rw [show (some (p, raw) :: rest).take (k + 1) =
              some (p, raw) :: rest.take k from rfl]
          rw [show fetchGo s none st (some (p, raw) :: rest.take k) =
              fetchGo s none
                { combined := st.combined ++
                    renderFragment p (processFileContent s raw),
                  processed := st.processed + 1,
                  totalSize := st.totalSize + (processFileContent s raw).length,
                  tokens := st.tokens +
                    estimateTokenCount (processFileContent s raw),
                  warned := st.warned } (rest.take k) from by
            simp only [fetchGo, Option.map_none']
            rw [if_neg (by simp), if_neg hc]]
          exact ih k _

/-- The loop's only run-level error is cancellation: per-file fetch
failures are skipped, a budget hit returns normally. -/
theorem fetchGo_err_dichotomy (s : Settings) :
    ∀ (files : List (Option (String × String))) (ab : Option Nat) (st : FetchSt),
      (fetchGo s ab st files).2 = none ∨
        (fetchGo s ab st files).2 = some .cancelled := by
  intro files
  induction files with
  | nil => intro ab st; simp [fetchGo]
  | cons f rest ih =>
    intro ab st
    by_cases hab : ab = some 0
    · rw [show fetchGo s ab st (f :: rest) = (st, some .cancelled) from by
        simp [fetchGo, hab]]
      simp
    · cases f with
      | none =>
        rw [show fetchGo s ab st (none :: rest) =
            fetchGo s (ab.map (· - 1)) st rest from by simp [fetchGo, hab]]
        exact ih _ _
      | some pr =>
        obtain ⟨p, raw⟩ := pr
        by_cases hc : s.tokenLimit > 0 ∧
            (st.tokens : Int) +
              estimateTokenCount (processFileContent s raw) > s.tokenLimit
        · rw [show fetchGo s ab st (some (p, raw) :: rest) =
              ({ st with warned := true }, none) from by
            simp only [fetchGo]
            rw [if_neg hab, if_pos hc]]
          simp
        · rw [show fetchGo s ab st (some (p, raw) :: rest) =
              fetchGo s (ab.map (· - 1))
                { combined := st.combined ++
                    renderFragment p (processFileContent s raw),
                  processed := st.processed + 1,
                  totalSize := st.totalSize + (processFileContent s raw).length,
                  tokens := st.tokens +
                    estimateTokenCount (processFileContent s raw),
                  warned := st.warned } rest from by
            simp only [fetchGo]
            rw [if_neg hab, if_neg hc]]
          exact ih _ _

/-- **C4.** Cancelling a fetch mid-run (abort observed at the `k`-th
per-iteration check): (a) the loop's state — and with it every
progress counter — equals the state of an uncancelled run over the
files before the cancellation point, so counters reflect only what was
processed before cancellation was observed; (b) the only run-level
error the loop produces is `Cancelled`; (c) the run's outcome is
either the explicit `Cancelled` error — which carries no result, so
never a partial success — or an ordinary completion; (d) `handleSubmit`
shows no error message for a cancellation but does for an ordinary
fetch failure, so the two are distinguished. -/
theorem c4_cancellation (s : Settings) (k : Nat)
    (files : List (Option (String × String))) :
    (fetchGo s (some k) initFetchSt files).1 =
      (fetchGo s none initFetchSt (files.take k)).1 ∧
    ((fetchGo s (some k) initFetchSt files).2 = none ∨
      (fetchGo s (some k) initFetchSt files).2 = some .cancelled) ∧
    (fetchRepoContents s (some k) files = .error .cancelled ∨
      fetchRepoContents s (some k) files =
        .ok (mkFetchResult (fetchGo s none initFetchSt (files.take k)).1)) ∧
    displayedError (some .cancelled) = none ∧
    displayedError (some .fetchFailed) ≠ none := by
  refine ⟨fetchGo_countdown_state s files k initFetchSt,
    fetchGo_err_dichotomy s files (some k) initFetchSt, ?_, rfl, by simp [displayedError]⟩
  unfold fetchRepoContents
  rcases hgo : fetchGo s (some k) initFetchSt files with ⟨st, e⟩
  rcases fetchGo_err_dichotomy s files (some k) initFetchSt with hd | hd <;>
    rw [hgo] at hd <;> simp at hd
  · right
    rw [hd]
    have hst : st = (fetchGo s none initFetchSt (files.take k)).1 := by
      rw [← fetchGo_countdown_state s files k initFetchSt, hgo]
    rw [hst]
  · left
    rw [hd]

/-- **C3, counterexample.** `fileCount` counts top-level dropped
entries with nonempty content, not accepted file fragments: dropping a
single directory `b` containing `x.py` and `y.py` yields two fragments
in the output but reports `fileCount = 1`. -/
theorem c3_counterexample :
    handleDrop defaultSettings 0 1500 5
        [.dir "b" [.file "x.py" 5 "hello", .file "y.py" 5 "world"]] =
      .ok ("// File: b/x.py\nhello\n\n// File: b/y.py\nworld", 1) ∧
    countOccur "// File: ".data
      "// File: b/x.py\nhello\n\n// File: b/y.py\nworld".data = 2 :=
  ⟨rfl, by decide⟩

/-- **C3, amended.** For a local run whose captured token count is
below the limit (in particular a fresh run, where it is `0`), the
reported `fileCount` equals the number of *top-level dropped entries*
that produced nonempty content — which coincides with the number of
accepted files only when every top-level entry is a single file.  For
the spec's tree `{a.py (10 bytes), b/node_modules/c.py, b/d.ts}` under
default configuration the result contains exactly the `a.py` and
`b/d.ts` fragments (the `node_modules` subtree is pruned) and reports
`fileCount = 2`, which here happens to equal the number of accepted
files. -/
theorem c3_fileCount_top_level (s : Settings) (ct0 tl : Int) (fuel : Nat)
    (entries : List FSEntry) (h : ct0 < tl) :
    ((dropLoop s ct0 tl fuel entries).2 =
      (entries.filter (fun e => procE s ct0 fuel "" e ≠ "")).length) ∧
    handleDrop defaultSettings 0 1500 5
        [.file "a.py" 10 "print(123)",
         .dir "b" [.dir "node_modules" [.file "c.py" 1 "c"],
                   .file "d.ts" 10 "let x = 1;"]] =
      .ok ("// File: a.py\nprint(123)\n\n// File: b/d.ts\nlet x = 1;", 2) := by
  constructor
  · have hno : ¬ ct0 ≥ tl := not_le.mpr h
    induction entries with
    | nil => rfl
    | cons e rest ih =>
      by_cases hc : procE s ct0 fuel "" e = ""
      · simp [dropLoop, hno, hc, ih]
      · simp [dropLoop, hno, hc, ih]
  · rfl

/-- Witness for `c3_fileCount_top_level` on the two-file directory
drop of `c3_counterexample`'s tree. -/
theorem c3_fileCount_top_level_witness :
    ((dropLoop defaultSettings 0 1500 5
        [.dir "b" [.file "x.py" 5 "hello", .file "y.py" 5 "world"]]).2 =
      ([FSEntry.dir "b" [.file "x.py" 5 "hello", .file "y.py" 5 "world"]].filter
        (fun e => procE defaultSettings 0 5 "" e ≠ "")).length) ∧
    handleDrop defaultSettings 0 1500 5
        [.file "a.py" 10 "print(123)",
         .dir "b" [.dir "node_modules" [.file "c.py" 1 "c"],
                   .file "d.ts" 10 "let x = 1;"]] =
      .ok ("// File: a.py\nprint(123)\n\n// File: b/d.ts\nlet x = 1;", 2) :=
  c3_fileCount_top_level defaultSettings 0 1500 5
    [.dir "b" [.file "x.py" 5 "hello", .file "y.py" 5 "world"]] (by decide)

end SAC
